import Mathlib

/-!
Verification of the trufflehog-redactor core (redaction engine and selection
console) against its specification.

Strings are modelled as `List Char`.  Python's `str.replace(old, new)` —
replace every non-overlapping occurrence, scanning left to right — is
embedded as `pyReplace`.  File-system reads are abstracted by a
`readFile : List Char → Option (List Char)` oracle (combining
`_validate_file` and the `open`/`read` step of `generate_replacements`:
`none` means the group is skipped).  The commit step's OS calls are
abstracted by a per-path `WriteEnv` oracle recording which calls succeed,
and the curses event loop of `run_tui` by its result value, since the
claims about `run_tui` concern only the control flow before the loop.
-/

/-- A secret-detector finding: `trufflehog_redactor.parser.Finding`. -/
structure Finding where
  file_path : List Char
  secret : List Char
  detector_name : List Char
deriving DecidableEq, Inhabited, Repr

/-- Worker for `pyReplace` with a nonempty pattern `p :: pt`.  The `fuel`
argument makes the recursion structural; `fuel = s.length` always suffices
since every step consumes at least one character of `s`. -/
def replaceCoreAux (p : Char) (pt rep : List Char) : Nat → List Char → List Char
  | _, [] => []
  | 0, c :: t => c :: t
  | fuel + 1, c :: t =>
    if (p :: pt).isPrefixOf (c :: t) then
      rep ++ replaceCoreAux p pt rep fuel (t.drop pt.length)
    else
      c :: replaceCoreAux p pt rep fuel t

/-- Python's `s.replace(pat, rep)`: replace every non-overlapping occurrence
of `pat` in `s` by `rep`, scanning left to right.  For the empty pattern,
Python inserts `rep` before every character and at the end; the claims only
ever use nonempty secrets, but the definition is faithful regardless. -/
def pyReplace (s pat rep : List Char) : List Char :=
  match pat with
  | [] => rep ++ List.foldr (fun c acc => c :: (rep ++ acc)) [] s
  | p :: pt => replaceCoreAux p pt rep s.length s

/-- `occursIn v s` holds when `v` occurs as a contiguous substring of `s`
(Python's `v in s`). -/
def occursIn (v s : List Char) : Prop := ∃ i, v <+: s.drop i

instance (v s : List Char) : Decidable (occursIn v s) :=
  haveI hd : Decidable (∃ i ∈ List.range (s.length + 1), v <+: s.drop i) :=
    List.decidableBEx _ _
  decidable_of_iff (∃ i ∈ List.range (s.length + 1), v <+: s.drop i) <| by
    constructor
    · rintro ⟨i, _, h⟩
      exact ⟨i, h⟩
    · rintro ⟨i, h⟩
      rcases Nat.lt_or_ge i (s.length + 1) with hi | hi
      · exact ⟨i, List.mem_range.mpr hi, h⟩
      · have hnil : s.drop i = [] := List.drop_eq_nil_of_le (by omega)
        rw [hnil] at h
        have hv : v = [] := by simpa using h
        exact ⟨0, List.mem_range.mpr (by omega), by simp [hv]⟩

/-- Stable insertion (descending by secret length): an element is placed
before the first strictly shorter one, so earlier elements stay first on
ties — the behaviour of Python's stable
`sorted(file_findings, key=lambda x: len(x.secret), reverse=True)`. -/
def insertByLenDesc (f : Finding) : List Finding → List Finding
  | [] => [f]
  | g :: rest =>
    if g.secret.length ≤ f.secret.length then f :: g :: rest
    else g :: insertByLenDesc f rest

/-- Stable sort of findings by `len(secret)` descending
(`sorted(..., key=lambda x: len(x.secret), reverse=True)` in
`generate_replacements` and `generate_diffs`). -/
def sortBySecretLenDesc : List Finding → List Finding
  | [] => []
  | f :: rest => insertByLenDesc f (sortBySecretLenDesc rest)

/-- The replacement text for one finding in `generate_replacements`:
`placeholder if placeholder else "*" * len(f.secret)`. -/
def replacementFor (placeholder : List Char) (f : Finding) : List Char :=
  if placeholder.isEmpty then List.replicate f.secret.length '*' else placeholder

/-- The per-file substitution pass of `generate_replacements` (lines 40–44):
sort the file's findings longest-first and sequentially replace each secret
by its replacement text. -/
def redactPass (findings : List Finding) (placeholder : List Char)
    (original : List Char) : List Char :=
  (sortBySecretLenDesc findings).foldl
    (fun redacted f => pyReplace redacted f.secret (replacementFor placeholder f))
    original

/-- Generic fold used to state shared lemmas about sequential replacement
passes (`redactPass` / `maskPassFile` are instances up to `rfl`). -/
def foldRedact (rp : Finding → List Char) (fs : List Finding) (s : List Char) :
    List Char :=
  fs.foldl (fun acc g => pyReplace acc g.secret (rp g)) s

/-- `_group_by_file`: group findings by `file_path`, keys in first-insertion
order (Python `defaultdict` preserves insertion order of keys and appends
preserve finding order within a group). -/
def _group_by_file (findings : List Finding) : List (List Char × List Finding) :=
  (findings.foldl
      (fun keys f => if f.file_path ∈ keys then keys else keys ++ [f.file_path]) []).map
    (fun p => (p, findings.filter (fun f => f.file_path == p)))

/-- One entry of the result mapping of `generate_replacements`:
`file_path ↦ (original, redacted)`. -/
abbrev RepEntry := List Char × (List Char × List Char)

/-- `generate_replacements(findings, placeholder)` with file validation and
reading abstracted into `readFile` (`none` = invalid path or failed
read/decode, group skipped with a warning).  A file is in the result only
when the substitution pass changed its content. -/
def generate_replacements (readFile : List Char → Option (List Char))
    (findings : List Finding) (placeholder : List Char) : List RepEntry :=
  (_group_by_file findings).filterMap (fun g =>
    match readFile g.1 with
    | none => none
    | some original =>
      let redacted := redactPass g.2 placeholder original
      if redacted ≠ original then some (g.1, (original, redacted)) else none)

/-- Python's `s[-v:]` on a list (all of `s` when `v = 0`). -/
def takeLast (s : List Char) (v : Nat) : List Char :=
  if v = 0 then s else s.drop (s.length - v)

/-- `tui.mask_secret(secret, visible=4)`: show the first and last `visible`
characters and mask the middle; all asterisks when the secret is too
short. -/
def mask_secret (secret : List Char) (visible : Nat := 4) : List Char :=
  if secret.length ≤ visible * 2 then List.replicate secret.length '*'
  else
    secret.take visible ++ List.replicate (secret.length - visible * 2) '*' ++
      takeLast secret visible

/-- Lexicographic `≤` on char lists — Python's string comparison, used by
`sorted(replacements.items())`. -/
def lexLe : List Char → List Char → Bool
  | [], _ => true
  | _ :: _, [] => false
  | a :: s, b :: t => if a = b then lexLe s t else decide (a < b)

/-- Stable insertion for ascending path order. -/
def insertByPathAsc (e : RepEntry) : List RepEntry → List RepEntry
  | [] => [e]
  | g :: rest => if lexLe e.1 g.1 then e :: g :: rest else g :: insertByPathAsc e rest

/-- `sorted(replacements.items())`: entries in ascending file-path order. -/
def sortByPathAsc : List RepEntry → List RepEntry
  | [] => []
  | e :: rest => insertByPathAsc e (sortByPathAsc rest)

/-- The masking pass of `generate_diffs` for one file's text (lines 95–105):
this file's findings, sorted longest-first, are each replaced by their
`mask_secret` form. -/
def maskPassFile (findings : List Finding) (path text : List Char) : List Char :=
  (sortBySecretLenDesc (findings.filter (fun f => f.file_path == path))).foldl
    (fun display f => pyReplace display f.secret (mask_secret f.secret)) text

/-- The displayed `(original, redacted)` pair per file that `generate_diffs`
feeds to `difflib.unified_diff`, in ascending path order.  The line-diff
rendering itself is outside the model; every character of the diff body
comes from these two display texts. -/
def generate_diffs_display (replacements : List RepEntry)
    (findings : List Finding) : List RepEntry :=
  (sortByPathAsc replacements).map (fun e =>
    if findings.isEmpty then e
    else (e.1, (maskPassFile findings e.1 e.2.1, maskPassFile findings e.1 e.2.2)))

/-- Outcome oracle for the OS calls `apply_redactions` makes for one entry
(`tempfile.mkstemp`, `fh.write`, `os.stat`, `os.chmod`, `os.chown`,
`os.replace`); `false` means that call raises an `OSError`. -/
structure WriteEnv where
  mkstempOk : Bool
  writeOk : Bool
  statOk : Bool
  chmodOk : Bool
  chownOk : Bool
  replaceOk : Bool
deriving DecidableEq, Repr

/-- Observable effects of processing one entry in `apply_redactions`. -/
inductive FileAction where
  | createTmp
  | writeTmp
  | chmodTmp
  | chownTmp
  | renameOverTarget
  | unlinkTmp
  | warnLog
deriving DecidableEq, Repr

/-- One iteration of the `apply_redactions` loop (lines 121–142): returns
whether the entry was committed, and the effects performed.  A failed
`mkstemp` is caught by the outer `except` with no temp file to clean; any
later `OSError` triggers the inner cleanup (`os.unlink` of the temp file)
and is then caught by the outer `except`, which logs a warning and
continues.  A `chown` failure is suppressed (`contextlib.suppress`) and the
commit proceeds. -/
def applyOne (env : WriteEnv) : Bool × List FileAction :=
  if env.mkstempOk = false then (false, [FileAction.warnLog])
  else if env.writeOk = false then
    (false, [FileAction.createTmp, FileAction.unlinkTmp, FileAction.warnLog])
  else if env.statOk = false then
    (false, [FileAction.createTmp, FileAction.writeTmp, FileAction.unlinkTmp,
      FileAction.warnLog])
  else if env.chmodOk = false then
    (false, [FileAction.createTmp, FileAction.writeTmp, FileAction.unlinkTmp,
      FileAction.warnLog])
  else if env.replaceOk = false then
    (false, [FileAction.createTmp, FileAction.writeTmp, FileAction.chmodTmp,
      FileAction.chownTmp, FileAction.unlinkTmp, FileAction.warnLog])
  else
    (true, [FileAction.createTmp, FileAction.writeTmp, FileAction.chmodTmp,
      FileAction.chownTmp, FileAction.renameOverTarget])

/-- `apply_redactions(replacements)`: process every entry independently and
return how many were committed (`count`). -/
def apply_redactions (envOf : List Char → WriteEnv)
    (replacements : List RepEntry) : Nat :=
  replacements.foldl (fun count e => if (applyOne (envOf e.1)).1 then count + 1 else count) 0

/-- `curses.KEY_UP`. -/
def KEY_UP : Nat := 259

/-- `curses.KEY_DOWN`. -/
def KEY_DOWN : Nat := 258

/-- The state pieces `_handle_key` returns: updated cursor and reveal flag,
the (possibly mutated) selection list, and `result` (`none` to keep
looping, `some` on confirm/quit). -/
structure KeyOutcome where
  cursor : Nat
  reveal : Bool
  selected : List Bool
  result : Option (List Finding)
deriving DecidableEq, Repr

/-- `tui._handle_key` (lines 196–235).  Key codes are the `ord` values used
by the source (`' '` 32, `'a'` 97, `'t'` 116, `'r'` 114, `'\n'` 10, `'q'`
113, `'k'` 107, `'j'` 106).  `cursor - 1` on `Nat` is `max(0, cursor - 1)`;
list reads use the in-range default forms since the loop maintains
`cursor < len(findings)` and `len(selected) = len(findings)`. -/
def _handle_key (key : Nat) (findings : List Finding) (selected : List Bool)
    (cursor : Nat) (reveal : Bool) : KeyOutcome :=
  if key = KEY_UP ∨ key = 107 then ⟨cursor - 1, reveal, selected, none⟩
  else if key = KEY_DOWN ∨ key = 106 then
    ⟨min (findings.length - 1) (cursor + 1), reveal, selected, none⟩
  else if key = 32 then
    ⟨cursor, reveal, selected.set cursor (!(selected.getD cursor false)), none⟩
  else if key = 97 then
    if selected.all (fun b => b) then
      ⟨cursor, reveal, List.replicate findings.length false, none⟩
    else
      ⟨cursor, reveal, List.replicate findings.length true, none⟩
  else if key = 116 then
    if (findings.zip selected).all
        (fun fs => !(fs.1.detector_name == (findings.getD cursor default).detector_name) || fs.2) then
      ⟨cursor, reveal,
        (findings.zip selected).map
          (fun fs =>
            if fs.1.detector_name == (findings.getD cursor default).detector_name then false
            else fs.2),
        none⟩
    else
      ⟨cursor, reveal,
        (findings.zip selected).map
          (fun fs =>
            if fs.1.detector_name == (findings.getD cursor default).detector_name then true
            else fs.2),
        none⟩
  else if key = 114 then ⟨cursor, !reveal, selected, none⟩
  else if key = 10 then
    ⟨cursor, reveal, selected,
      some ((findings.zip selected).filterMap (fun fs => if fs.2 then some fs.1 else none))⟩
  else if key = 113 then ⟨cursor, reveal, selected, some []⟩
  else ⟨cursor, reveal, selected, none⟩

/-- `tui._ELLIPSIS`. -/
def _ELLIPSIS : List Char := ['.', '.', '.']

/-- `tui._MIN_PATH_WIDTH`. -/
def _MIN_PATH_WIDTH : Nat := 5

/-- `tui._truncate_path(path, max_width)` (lines 186–193): middle-truncate a
path, keeping `side = (max_width - 3) div 2` leading characters and
`max_width - 3 - side` trailing ones around the ellipsis. -/
def _truncate_path (path : List Char) (max_width : Nat) : List Char :=
  if path.length ≤ max_width then path
  else if max_width ≤ _ELLIPSIS.length then path.take max_width
  else
    path.take ((max_width - _ELLIPSIS.length) / 2) ++ _ELLIPSIS ++
      takeLast path (max_width - _ELLIPSIS.length - (max_width - _ELLIPSIS.length) / 2)

/-- The path column width computed in `_draw_finding_row` (line 170):
`max(_MIN_PATH_WIDTH, max_x - 1 - len(prefix) - len(masked) - 1)` (with
truncated `Nat` subtraction agreeing with Python's `max` against a possibly
negative value). -/
def path_max_width (max_x prefix_len masked_len : Nat) : Nat :=
  max _MIN_PATH_WIDTH (max_x - 1 - prefix_len - masked_len - 1)

/-- Observables of one `run_tui` invocation: the returned selection, whether
`_open_tty` was attempted, whether the curses event loop was entered,
whether the no-TTY condition was reported on stderr, and the selection
state created for the loop (if any). -/
structure TUIRun where
  result : List Finding
  ttyAttempted : Bool
  enteredLoop : Bool
  reportedNoTTY : Bool
  selectionState : Option (List Bool)
deriving DecidableEq, Repr

/-- `tui._open_tty` (lines 84–101): the pair is (file handle or `none`,
whether an error message was printed).  `openOk` is `os.open("/dev/tty")`
succeeding, `fdopenOk` is `os.fdopen` succeeding; both failure paths print
to stderr and return `None` instead of raising. -/
def _open_tty (openOk fdopenOk : Bool) : Option Unit × Bool :=
  if openOk = false then (none, true)
  else if fdopenOk = false then (none, true)
  else (some (), false)

/-- `tui.run_tui` (lines 27–81), with the curses loop abstracted by its
result: empty findings return `[]` before any TTY work; a failed
`_open_tty` returns `[]` without entering the loop; otherwise the initial
all-selected state is built and the loop runs. -/
def run_tui (findings : List Finding) (openOk fdopenOk : Bool)
    (loopResult : List Finding) : TUIRun :=
  if findings.isEmpty then ⟨[], false, false, false, none⟩
  else
    match _open_tty openOk fdopenOk with
    | (none, reported) => ⟨[], true, false, reported, none⟩
    | (some _, reported) =>
      ⟨loopResult, true, true, reported, some (List.replicate findings.length true)⟩

/-! ### Equations for `pyReplace` with a nonempty pattern -/

theorem replaceCoreAux_nil (p : Char) (pt rep : List Char) (fuel : Nat) :
    replaceCoreAux p pt rep fuel [] = [] := by
  cases fuel <;> rfl

theorem replaceCoreAux_succ_pos (p : Char) (pt rep : List Char) (fuel : Nat) (c : Char)
    (t : List Char) (h : (p :: pt).isPrefixOf (c :: t) = true) :
    replaceCoreAux p pt rep (fuel + 1) (c :: t) =
      rep ++ replaceCoreAux p pt rep fuel (t.drop pt.length) := by
  simp [replaceCoreAux, h]

theorem replaceCoreAux_succ_neg (p : Char) (pt rep : List Char) (fuel : Nat) (c : Char)
    (t : List Char) (h : (p :: pt).isPrefixOf (c :: t) = false) :
    replaceCoreAux p pt rep (fuel + 1) (c :: t) = c :: replaceCoreAux p pt rep fuel t := by
  simp [replaceCoreAux, h]

theorem replaceCoreAux_congr (p : Char) (pt rep : List Char) :
    ∀ (f₁ : Nat) (s : List Char) (f₂ : Nat), s.length ≤ f₁ → s.length ≤ f₂ →
      replaceCoreAux p pt rep f₁ s = replaceCoreAux p pt rep f₂ s := by
  intro f₁
  induction f₁ with
  | zero =>
    intro s f₂ h1 _
    have hs : s = [] := List.eq_nil_of_length_eq_zero (by omega)
    subst hs
    simp [replaceCoreAux_nil]
  | succ n ih =>
    intro s f₂ h1 h2
    match s, f₂ with
    | [], _ => simp [replaceCoreAux_nil]
    | c :: t, 0 => simp at h2
    | c :: t, m + 1 =>
      rcases hb : (p :: pt).isPrefixOf (c :: t) with _ | _
      · rw [replaceCoreAux_succ_neg p pt rep n c t hb,
          replaceCoreAux_succ_neg p pt rep m c t hb,
          ih t m (by simp only [List.length_cons] at h1; omega)
            (by simp only [List.length_cons] at h2; omega)]
      · rw [replaceCoreAux_succ_pos p pt rep n c t hb,
          replaceCoreAux_succ_pos p pt rep m c t hb,
          ih (t.drop pt.length) m
            (by simp only [List.length_drop, List.length_cons] at h1 ⊢; omega)
            (by simp only [List.length_drop, List.length_cons] at h2 ⊢; omega)]

theorem pyReplace_eq_aux (p : Char) (pt rep s : List Char) :
    pyReplace s (p :: pt) rep = replaceCoreAux p pt rep s.length s := rfl

theorem pyReplace_nil (p : Char) (pt rep : List Char) : pyReplace [] (p :: pt) rep = [] := by
  rw [pyReplace_eq_aux]
  exact replaceCoreAux_nil p pt rep 0

theorem pyReplace_cons_pos (p : Char) (pt rep : List Char) (c : Char) (t : List Char)
    (h : (p :: pt).isPrefixOf (c :: t) = true) :
    pyReplace (c :: t) (p :: pt) rep = rep ++ pyReplace (t.drop pt.length) (p :: pt) rep := by
  rw [pyReplace_eq_aux, pyReplace_eq_aux, List.length_cons,
    replaceCoreAux_succ_pos p pt rep t.length c t h,
    replaceCoreAux_congr p pt rep t.length (t.drop pt.length) (t.drop pt.length).length
      (by simp only [List.length_drop]; omega) (le_refl _)]

theorem pyReplace_cons_neg (p : Char) (pt rep : List Char) (c : Char) (t : List Char)
    (h : (p :: pt).isPrefixOf (c :: t) = false) :
    pyReplace (c :: t) (p :: pt) rep = c :: pyReplace t (p :: pt) rep := by
  rw [pyReplace_eq_aux, pyReplace_eq_aux, List.length_cons,
    replaceCoreAux_succ_neg p pt rep t.length c t h]

theorem isPrefixOf_eq_true_iff (l₁ l₂ : List Char) : l₁.isPrefixOf l₂ = true ↔ l₁ <+: l₂ :=
  List.isPrefixOf_iff_prefix

/-! ### Basic facts about `occursIn` -/

theorem occursIn_of_pre (v s : List Char) (h : v <+: s) : occursIn v s := ⟨0, by simpa⟩

theorem occursIn_cons (v : List Char) (c : Char) (t : List Char) (h : occursIn v t) :
    occursIn v (c :: t) := by
  obtain ⟨i, hi⟩ := h
  exact ⟨i + 1, by rwa [List.drop_succ_cons]⟩

theorem occursIn_append_left (v l R : List Char) (h : occursIn v R) : occursIn v (l ++ R) := by
  obtain ⟨i, hi⟩ := h
  refine ⟨l.length + i, ?_⟩
  rw [List.drop_append i]
  exact hi

theorem occursIn_of_drop (v s : List Char) (n : Nat) (h : occursIn v (s.drop n)) :
    occursIn v s := by
  obtain ⟨i, hi⟩ := h
  refine ⟨n + i, ?_⟩
  rw [← List.drop_drop]
  exact hi

theorem occursIn_cons_elim (v : List Char) (c : Char) (t : List Char)
    (h : occursIn v (c :: t)) : v <+: c :: t ∨ occursIn v t := by
  obtain ⟨i, hi⟩ := h
  match i, hi with
  | 0, hi => exact Or.inl (by simpa using hi)
  | i + 1, hi => exact Or.inr ⟨i, by rwa [List.drop_succ_cons] at hi⟩

theorem drop_append_ge (l₁ l₂ : List Char) (i : Nat) (h : l₁.length ≤ i) :
    (l₁ ++ l₂).drop i = l₂.drop (i - l₁.length) := by
  have h2 : i = l₁.length + (i - l₁.length) := by omega
  conv_lhs => rw [h2]
  rw [List.drop_append]

theorem head_mem_of_pre_drop_append (rep X : List Char) (v0 : Char) (v1 : List Char)
    (i : Nat) (hlt : i < rep.length) (hi : v0 :: v1 <+: (rep ++ X).drop i) : v0 ∈ rep := by
  rw [List.drop_append_of_le_length (Nat.le_of_lt hlt)] at hi
  rcases hd : rep.drop i with _ | ⟨r0, r1⟩
  · have hL : (rep.drop i).length = 0 := by rw [hd]; rfl
    rw [List.length_drop] at hL
    omega
  · rw [hd, List.cons_append, List.cons_prefix_cons] at hi
    have hr0 : r0 ∈ rep := List.drop_subset i rep (by rw [hd]; exact List.mem_cons_self r0 r1)
    rw [hi.1]
    exact hr0

/-! ### Core lemmas about `pyReplace` -/

/-- A prefix of the output of a replacement that avoids the replacement
text's characters was already a prefix of the input: the scan certified
character by character that the pattern did not match there. -/
theorem prefix_transfer (p : Char) (pt rep : List Char) (hrep : rep ≠ []) :
    ∀ (s v : List Char), (∀ c ∈ v, c ∉ rep) → v <+: pyReplace s (p :: pt) rep → v <+: s
  | [], v => fun _ h => by rwa [pyReplace_nil] at h
  | c :: t, v => fun hdisj h => by
    rcases hb : (p :: pt).isPrefixOf (c :: t) with _ | _
    · rw [pyReplace_cons_neg p pt rep c t hb] at h
      cases v with
      | nil => exact ⟨c :: t, rfl⟩
      | cons v0 v1 =>
        rw [List.cons_prefix_cons] at h
        obtain ⟨rfl, h2⟩ := h
        rw [List.cons_prefix_cons]
        exact ⟨rfl, prefix_transfer p pt rep hrep t v1
          (fun x hx => hdisj x (List.mem_cons_of_mem _ hx)) h2⟩
    · rw [pyReplace_cons_pos p pt rep c t hb] at h
      cases v with
      | nil => exact ⟨c :: t, rfl⟩
      | cons v0 v1 =>
        rcases rep with _ | ⟨r0, r1⟩
        · exact absurd rfl hrep
        · rw [List.cons_append, List.cons_prefix_cons] at h
          have hv0 : v0 ∈ r0 :: r1 := by rw [h.1]; exact List.mem_cons_self r0 r1
          exact absurd hv0 (hdisj v0 (List.mem_cons_self v0 v1))

/-- After replacing a pattern whose characters are disjoint from the
(nonempty) replacement text, the pattern no longer occurs anywhere. -/
theorem self_free (p : Char) (pt rep : List Char) (hrep : rep ≠ [])
    (hdisj : ∀ c ∈ rep, c ∉ p :: pt) :
    ∀ s : List Char, ¬ occursIn (p :: pt) (pyReplace s (p :: pt) rep)
  | [] => by
    rw [pyReplace_nil]
    rintro ⟨i, hi⟩
    simp at hi
  | c :: t => by
    rcases hb : (p :: pt).isPrefixOf (c :: t) with _ | _
    · rw [pyReplace_cons_neg p pt rep c t hb]
      rintro ⟨i, hi⟩
      match i, hi with
      | 0, hi =>
        have hi0 : (p :: pt) <+: pyReplace (c :: t) (p :: pt) rep := by
          rw [pyReplace_cons_neg p pt rep c t hb]
          simpa using hi
        have hpre : (p :: pt) <+: c :: t :=
          prefix_transfer p pt rep hrep (c :: t) (p :: pt)
            (fun x hx hr => hdisj x hr hx) hi0
        rw [← isPrefixOf_eq_true_iff] at hpre
        rw [hpre] at hb
        cases hb
      | i + 1, hi =>
        exact self_free p pt rep hrep hdisj t ⟨i, by rwa [List.drop_succ_cons] at hi⟩
    · rw [pyReplace_cons_pos p pt rep c t hb]
      rintro ⟨i, hi⟩
      rcases Nat.lt_or_ge i rep.length with hlt | hge
      · exact hdisj p (head_mem_of_pre_drop_append rep _ p pt i hlt hi)
          (List.mem_cons_self p pt)
      · rw [drop_append_ge rep _ i hge] at hi
        exact self_free p pt rep hrep hdisj (t.drop pt.length) ⟨i - rep.length, hi⟩
termination_by s => s.length
decreasing_by
  all_goals simp only [List.length_drop, List.length_cons]
  all_goals omega

/-- Replacing a pattern cannot create an occurrence of a string `v` that
shares no character with the (nonempty) replacement text: any such
occurrence was already present in the input. -/
theorem occursIn_transfer (p : Char) (pt rep : List Char) (hrep : rep ≠ []) :
    ∀ (s v : List Char), (∀ c ∈ v, c ∉ rep) →
      occursIn v (pyReplace s (p :: pt) rep) → occursIn v s
  | [], v => fun _ h => by rwa [pyReplace_nil] at h
  | c :: t, v => fun hdisj h => by
    rcases hb : (p :: pt).isPrefixOf (c :: t) with _ | _
    · rw [pyReplace_cons_neg p pt rep c t hb] at h
      rcases occursIn_cons_elim v c _ h with hpre | hocc
      · have hpv : v <+: pyReplace (c :: t) (p :: pt) rep := by
          rw [pyReplace_cons_neg p pt rep c t hb]
          exact hpre
        exact occursIn_of_pre _ _ (prefix_transfer p pt rep hrep (c :: t) v hdisj hpv)
      · exact occursIn_cons v c t (occursIn_transfer p pt rep hrep t v hdisj hocc)
    · rw [pyReplace_cons_pos p pt rep c t hb] at h
      obtain ⟨i, hi⟩ := h
      cases v with
      | nil => exact ⟨0, by simp⟩
      | cons v0 v1 =>
        rcases Nat.lt_or_ge i rep.length with hlt | hge
        · exact absurd (head_mem_of_pre_drop_append rep _ v0 v1 i hlt hi)
            (hdisj v0 (List.mem_cons_self v0 v1))
        · rw [drop_append_ge rep _ i hge] at hi
          have hrec := occursIn_transfer p pt rep hrep (t.drop pt.length) (v0 :: v1)
            hdisj ⟨i - rep.length, hi⟩
          exact occursIn_cons _ c t (occursIn_of_drop _ t pt.length hrec)
termination_by s v => s.length
decreasing_by
  all_goals simp only [List.length_drop, List.length_cons]
  all_goals omega

/-- If the pattern occurs in the input, the replacement text occurs in the
output: the leftmost match is actually replaced. -/
theorem rep_appears (p : Char) (pt rep : List Char) :
    ∀ s : List Char, occursIn (p :: pt) s → occursIn rep (pyReplace s (p :: pt) rep)
  | [] => by
    rintro ⟨i, hi⟩
    simp at hi
  | c :: t => fun h => by
    rcases hb : (p :: pt).isPrefixOf (c :: t) with _ | _
    · rw [pyReplace_cons_neg p pt rep c t hb]
      rcases occursIn_cons_elim _ c t h with hpre | hocc
      · rw [← isPrefixOf_eq_true_iff] at hpre
        rw [hpre] at hb
        cases hb
      · exact occursIn_cons rep c _ (rep_appears p pt rep t hocc)
    · rw [pyReplace_cons_pos p pt rep c t hb]
      exact ⟨0, by simpa using List.prefix_append rep _⟩

/-- Replacing a pattern that does not occur is the identity. -/
theorem pyReplace_id_of_absent (p : Char) (pt rep : List Char) :
    ∀ s : List Char, ¬ occursIn (p :: pt) s → pyReplace s (p :: pt) rep = s
  | [] => fun _ => pyReplace_nil p pt rep
  | c :: t => fun h => by
    rcases hb : (p :: pt).isPrefixOf (c :: t) with _ | _
    · rw [pyReplace_cons_neg p pt rep c t hb,
        pyReplace_id_of_absent p pt rep t (fun hocc => h (occursIn_cons _ c t hocc))]
    · exact absurd (occursIn_of_pre _ _ ((isPrefixOf_eq_true_iff _ _).mp hb)) h

/-- A prefix of the input that no pattern occurrence overlaps (every match
starts at or beyond its end) is still a prefix of the output. -/
theorem pre_survives (p : Char) (pt rep : List Char) :
    ∀ (s v : List Char), v <+: s → (∀ i, (p :: pt) <+: s.drop i → v.length ≤ i) →
      v <+: pyReplace s (p :: pt) rep
  | s, [] => fun _ _ => ⟨pyReplace s (p :: pt) rep, rfl⟩
  | [], v0 :: v1 => fun hv _ => by simp at hv
  | c :: t, v0 :: v1 => fun hv hocc => by
    rcases hb : (p :: pt).isPrefixOf (c :: t) with _ | _
    · rw [pyReplace_cons_neg p pt rep c t hb]
      rw [List.cons_prefix_cons] at hv
      rw [List.cons_prefix_cons]
      refine ⟨hv.1, pre_survives p pt rep t v1 hv.2 ?_⟩
      intro i hpre
      have hle := hocc (i + 1) (by rwa [List.drop_succ_cons])
      simp only [List.length_cons] at hle
      omega
    · have h0 : (p :: pt) <+: (c :: t).drop 0 := by
        simpa using (isPrefixOf_eq_true_iff _ _).mp hb
      have hle := hocc 0 h0
      simp at hle

/-- An occurrence of `v` in the input that is interval-disjoint from every
occurrence of the pattern survives the replacement: `v` still occurs in
the output. -/
theorem occ_survives (p : Char) (pt rep : List Char) :
    ∀ (s : List Char) (v0 : Char) (v1 : List Char) (j : Nat),
      (v0 :: v1) <+: s.drop j →
      (∀ i, (p :: pt) <+: s.drop i → i + pt.length + 1 ≤ j ∨ j + v1.length + 1 ≤ i) →
      occursIn (v0 :: v1) (pyReplace s (p :: pt) rep)
  | [], v0, v1, j => fun hv _ => by simp at hv
  | c :: t, v0, v1, j => fun hv hdis => by
    rcases hb : (p :: pt).isPrefixOf (c :: t) with _ | _
    · match j, hv with
      | 0, hv =>
        refine occursIn_of_pre _ _
          (pre_survives p pt rep (c :: t) (v0 :: v1) (by simpa using hv) ?_)
        intro i hpre
        rcases hdis i hpre with h1 | h2 <;> simp only [List.length_cons] <;> omega
      | j' + 1, hv =>
        rw [pyReplace_cons_neg p pt rep c t hb]
        refine occursIn_cons _ c _ (occ_survives p pt rep t v0 v1 j' ?_ ?_)
        · rwa [List.drop_succ_cons] at hv
        · intro i hpre
          have := hdis (i + 1) (by rwa [List.drop_succ_cons])
          omega
    · have h0 : (p :: pt) <+: (c :: t).drop 0 := by
        simpa using (isPrefixOf_eq_true_iff _ _).mp hb
      have hj : pt.length + 1 ≤ j := by
        rcases hdis 0 h0 with h1 | h2 <;> omega
      rw [pyReplace_cons_pos p pt rep c t hb]
      refine occursIn_append_left _ rep _
        (occ_survives p pt rep (t.drop pt.length) v0 v1 (j - (pt.length + 1)) ?_ ?_)
      · rw [List.drop_drop]
        have he : pt.length + (j - (pt.length + 1)) = j - 1 := by omega
        rw [he]
        match j, hj with
        | jj + 1, _ =>
          rw [List.drop_succ_cons] at hv
          simpa using hv
      · intro i hpre
        rw [List.drop_drop] at hpre
        have hpre2 : (p :: pt) <+: (c :: t).drop (pt.length + i + 1) := by
          rw [List.drop_succ_cons]
          exact hpre
        have := hdis (pt.length + i + 1) hpre2
        omega
termination_by s v0 v1 j => s.length
decreasing_by
  all_goals simp only [List.length_drop, List.length_cons]
  all_goals omega

/-! ### Wrappers over an arbitrary nonempty pattern -/

theorem pyReplace_self_free (pat rep : List Char) (hpat : pat ≠ []) (hrep : rep ≠ [])
    (hdisj : ∀ c ∈ rep, c ∉ pat) (s : List Char) :
    ¬ occursIn pat (pyReplace s pat rep) := by
  rcases pat with _ | ⟨p, pt⟩
  · exact absurd rfl hpat
  · exact self_free p pt rep hrep hdisj s

theorem pyReplace_occ_transfer (pat rep : List Char) (hpat : pat ≠ []) (hrep : rep ≠ [])
    (v s : List Char) (hdisj : ∀ c ∈ v, c ∉ rep)
    (h : occursIn v (pyReplace s pat rep)) : occursIn v s := by
  rcases pat with _ | ⟨p, pt⟩
  · exact absurd rfl hpat
  · exact occursIn_transfer p pt rep hrep s v hdisj h

theorem pyReplace_skip (pat rep : List Char) (hpat : pat ≠ []) (s : List Char)
    (h : ¬ occursIn pat s) : pyReplace s pat rep = s := by
  rcases pat with _ | ⟨p, pt⟩
  · exact absurd rfl hpat
  · exact pyReplace_id_of_absent p pt rep s h

theorem pyReplace_rep_appears (pat rep : List Char) (hpat : pat ≠ []) (s : List Char)
    (h : occursIn pat s) : occursIn rep (pyReplace s pat rep) := by
  rcases pat with _ | ⟨p, pt⟩
  · exact absurd rfl hpat
  · exact rep_appears p pt rep s h

/-! ### Lemmas about sequential replacement passes -/

/-- A string absent from the input stays absent through a pass whose
replacement texts avoid its characters. -/
theorem foldRedact_preserves_absent (rp : Finding → List Char) (v : List Char) :
    ∀ (fs : List Finding) (s : List Char),
      (∀ g ∈ fs, g.secret ≠ [] ∧ rp g ≠ [] ∧ ∀ c ∈ rp g, c ∉ v) →
      ¬ occursIn v s → ¬ occursIn v (foldRedact rp fs s)
  | [], s => fun _ hs => hs
  | g :: rest, s => fun hsafe hs => by
    have hg := hsafe g (List.mem_cons_self g rest)
    have hstep : ¬ occursIn v (pyReplace s g.secret (rp g)) := fun hocc =>
      hs (pyReplace_occ_transfer g.secret (rp g) hg.1 hg.2.1 v s
        (fun c hc hcr => hg.2.2 c hcr hc) hocc)
    show ¬ occursIn v (foldRedact rp rest (pyReplace s g.secret (rp g)))
    exact foldRedact_preserves_absent rp v rest (pyReplace s g.secret (rp g))
      (fun x hx => hsafe x (List.mem_cons_of_mem g hx)) hstep

/-- After a pass over `fs`, the secret of any member of `fs` no longer
occurs, provided all replacement texts are nonempty and avoid its
characters. -/
theorem foldRedact_removes (rp : Finding → List Char) :
    ∀ (fs : List Finding) (f : Finding) (s : List Char), f ∈ fs →
      (∀ g ∈ fs, g.secret ≠ [] ∧ rp g ≠ [] ∧ ∀ c ∈ rp g, c ∉ f.secret) →
      ¬ occursIn f.secret (foldRedact rp fs s)
  | [], f, s => fun hf _ => absurd hf (List.not_mem_nil f)
  | g :: rest, f, s => fun hf hsafe => by
    by_cases hfr : f ∈ rest
    · show ¬ occursIn f.secret (foldRedact rp rest (pyReplace s g.secret (rp g)))
      exact foldRedact_removes rp rest f (pyReplace s g.secret (rp g)) hfr
        (fun x hx => hsafe x (List.mem_cons_of_mem g hx))
    · have hfg : f = g := by
        rcases List.mem_cons.mp hf with h | h
        · exact h
        · exact absurd h hfr
      subst hfg
      have hg := hsafe f (List.mem_cons_self f rest)
      have hstep : ¬ occursIn f.secret (pyReplace s f.secret (rp f)) :=
        pyReplace_self_free f.secret (rp f) hg.1 hg.2.1 hg.2.2 s
      show ¬ occursIn f.secret (foldRedact rp rest (pyReplace s f.secret (rp f)))
      exact foldRedact_preserves_absent rp f.secret rest (pyReplace s f.secret (rp f))
        (fun x hx => hsafe x (List.mem_cons_of_mem f hx)) hstep

/-- A pass is the identity on a string in which no secret of the group
occurs. -/
theorem foldRedact_id (rp : Finding → List Char) :
    ∀ (fs : List Finding) (s : List Char),
      (∀ g ∈ fs, g.secret ≠ [] ∧ ¬ occursIn g.secret s) → foldRedact rp fs s = s
  | [], _ => fun _ => rfl
  | g :: rest, s => fun h => by
    have hg := h g (List.mem_cons_self g rest)
    have hstep : pyReplace s g.secret (rp g) = s :=
      pyReplace_skip g.secret (rp g) hg.1 s hg.2
    show foldRedact rp rest (pyReplace s g.secret (rp g)) = s
    rw [hstep]
    exact foldRedact_id rp rest s (fun x hx => h x (List.mem_cons_of_mem g hx))

/-! ### The sorts permute their input -/

theorem mem_insertByLenDesc (f g : Finding) :
    ∀ l : List Finding, g ∈ insertByLenDesc f l ↔ g = f ∨ g ∈ l
  | [] => by simp [insertByLenDesc]
  | x :: rest => by
    simp only [insertByLenDesc]
    by_cases hc : x.secret.length ≤ f.secret.length
    · rw [if_pos hc]
      simp [List.mem_cons]
    · rw [if_neg hc]
      simp only [List.mem_cons, mem_insertByLenDesc f g rest]
      tauto

theorem mem_sortBySecretLenDesc (g : Finding) :
    ∀ l : List Finding, g ∈ sortBySecretLenDesc l ↔ g ∈ l
  | [] => Iff.rfl
  | f :: rest => by
    simp only [sortBySecretLenDesc, mem_insertByLenDesc f g (sortBySecretLenDesc rest),
      mem_sortBySecretLenDesc g rest, List.mem_cons]

theorem mem_insertByPathAsc (e g : RepEntry) :
    ∀ l : List RepEntry, g ∈ insertByPathAsc e l ↔ g = e ∨ g ∈ l
  | [] => by simp [insertByPathAsc]
  | x :: rest => by
    simp only [insertByPathAsc]
    cases hc : lexLe e.1 x.1
    · rw [if_neg (by simp [hc])]
      simp only [List.mem_cons, mem_insertByPathAsc e g rest]
      tauto
    · rw [if_pos (by simp [hc])]
      simp [List.mem_cons]

theorem mem_sortByPathAsc (g : RepEntry) :
    ∀ l : List RepEntry, g ∈ sortByPathAsc l ↔ g ∈ l
  | [] => Iff.rfl
  | e :: rest => by
    simp only [sortByPathAsc, mem_insertByPathAsc e g (sortByPathAsc rest),
      mem_sortByPathAsc g rest, List.mem_cons]

/-! ### Facts about the replacement and mask texts -/

theorem replacementFor_ne_nil (placeholder : List Char) (f : Finding)
    (h : f.secret ≠ []) : replacementFor placeholder f ≠ [] := by
  unfold replacementFor
  by_cases hp : placeholder.isEmpty
  · rw [if_pos hp]
    simp only [ne_eq, List.replicate_eq_nil]
    exact fun h0 => h (List.eq_nil_of_length_eq_zero h0)
  · rw [if_neg hp]
    exact fun hnil => hp (by simp [hnil])

theorem mask_secret_length (secret : List Char) (visible : Nat) (hv : 0 < visible) :
    (mask_secret secret visible).length = secret.length := by
  unfold mask_secret
  by_cases hle : secret.length ≤ visible * 2
  · rw [if_pos hle]
    simp
  · rw [if_neg hle]
    unfold takeLast
    rw [if_neg (by omega)]
    have h1 : visible ≤ secret.length := by omega
    simp only [List.length_append, List.length_take, List.length_replicate, List.length_drop]
    rw [Nat.min_eq_left h1]
    omega

theorem mask_secret_ne_nil (secret : List Char) (visible : Nat) (hv : 0 < visible)
    (h : secret ≠ []) : mask_secret secret visible ≠ [] := by
  intro hnil
  have hlen := mask_secret_length secret visible hv
  rw [hnil] at hlen
  exact h (List.eq_nil_of_length_eq_zero hlen.symm)

/-! ### Lemmas about the result mapping of `generate_replacements` -/

theorem lookup_eq_none_of_keys (k : List Char) :
    ∀ l : List RepEntry, (∀ e ∈ l, e.1 ≠ k) → l.lookup k = none
  | [] => fun _ => rfl
  | (a, b) :: rest => fun h => by
    have ha : a ≠ k := h (a, b) (List.mem_cons_self _ _)
    have hb : (k == a) = false := by
      rw [beq_eq_false_iff_ne]
      exact fun he => ha he.symm
    simp only [List.lookup, hb]
    exact lookup_eq_none_of_keys k rest (fun e he => h e (List.mem_cons_of_mem _ he))

theorem group_by_file_snd (findings : List Finding) (p : List Char) (fsg : List Finding)
    (h : (p, fsg) ∈ _group_by_file findings) :
    fsg = findings.filter (fun f => f.file_path == p) := by
  unfold _group_by_file at h
  obtain ⟨q, _, hq⟩ := List.mem_map.mp h
  rw [Prod.mk.injEq] at hq
  obtain ⟨hq1, hq2⟩ := hq
  subst hq1
  exact hq2.symm

theorem mem_generate_replacements (readFile : List Char → Option (List Char))
    (findings : List Finding) (placeholder : List Char) (p o r : List Char)
    (h : (p, (o, r)) ∈ generate_replacements readFile findings placeholder) :
    readFile p = some o ∧
      r = redactPass (findings.filter (fun f => f.file_path == p)) placeholder o ∧
      r ≠ o := by
  unfold generate_replacements at h
  obtain ⟨⟨pg, fsg⟩, hg, hsome⟩ := List.mem_filterMap.mp h
  have hsnd : fsg = findings.filter (fun f => f.file_path == pg) :=
    group_by_file_snd findings pg fsg hg
  rcases hr : readFile pg with _ | o'
  · rw [hr] at hsome
    simp at hsome
  · rw [hr] at hsome
    dsimp only at hsome
    split at hsome
    next hcond =>
      rw [Option.some.injEq, Prod.mk.injEq, Prod.mk.injEq] at hsome
      obtain ⟨h1, h2, h3⟩ := hsome
      subst h1
      subst h2
      refine ⟨hr, ?_, ?_⟩
      · rw [← h3, hsnd]
      · rw [← h3]
        exact hcond
    next => cases hsome

theorem generate_replacements_lookup_none (readFile : List Char → Option (List Char))
    (findings : List Finding) (placeholder : List Char) (p : List Char)
    (h : ∀ o, readFile p = some o →
      redactPass (findings.filter (fun f => f.file_path == p)) placeholder o = o) :
    (generate_replacements readFile findings placeholder).lookup p = none := by
  apply lookup_eq_none_of_keys
  rintro ⟨pe, oe, re⟩ he
  intro hpe
  subst hpe
  obtain ⟨hr, hred, hne⟩ := mem_generate_replacements readFile findings placeholder pe oe re he
  exact hne (hred.trans (h oe hr))

/-- The substitution pass reaches a fixpoint after one application, provided
every secret is nonempty and no replacement text shares a character with
any secret of the group. -/
theorem redactPass_fixpoint (findings : List Finding) (placeholder : List Char)
    (hsafe : ∀ f ∈ findings, f.secret ≠ [] ∧
      ∀ g ∈ findings, ∀ c ∈ replacementFor placeholder g, c ∉ f.secret) :
    ∀ original, redactPass findings placeholder (redactPass findings placeholder original)
      = redactPass findings placeholder original := by
  intro original
  have hmem : ∀ g : Finding, g ∈ sortBySecretLenDesc findings ↔ g ∈ findings :=
    fun g => mem_sortBySecretLenDesc g findings
  have hgone : ∀ f ∈ sortBySecretLenDesc findings,
      ¬ occursIn f.secret (redactPass findings placeholder original) := by
    intro f hf
    show ¬ occursIn f.secret
      (foldRedact (replacementFor placeholder) (sortBySecretLenDesc findings) original)
    apply foldRedact_removes (replacementFor placeholder) (sortBySecretLenDesc findings)
      f original hf
    intro g hg
    have hgm : g ∈ findings := (hmem g).mp hg
    have hfm : f ∈ findings := (hmem f).mp hf
    exact ⟨(hsafe g hgm).1, replacementFor_ne_nil placeholder g (hsafe g hgm).1,
      (hsafe f hfm).2 g hgm⟩
  show foldRedact (replacementFor placeholder) (sortBySecretLenDesc findings)
    (redactPass findings placeholder original) = _
  apply foldRedact_id
  intro g hg
  exact ⟨(hsafe g ((hmem g).mp hg)).1, hgone g hg⟩

/-! ### Claim C3 -/

/-- Claim C3: for every findings list and placeholder, every entry of the
mapping returned by plan (`generate_replacements`) satisfies
`original ≠ redacted`, and a file whose content is unchanged by the
substitution pass (no secret of its group occurs verbatim) has no entry in
the mapping at all. -/
theorem C3_plan_entries_changed (readFile : List Char → Option (List Char))
    (findings : List Finding) (placeholder : List Char) :
    (∀ p o r, (p, (o, r)) ∈ generate_replacements readFile findings placeholder → o ≠ r)
    ∧ ∀ p o, readFile p = some o →
        redactPass (findings.filter (fun f => f.file_path == p)) placeholder o = o →
        (generate_replacements readFile findings placeholder).lookup p = none := by
  constructor
  · intro p o r h
    obtain ⟨_, _, hne⟩ := mem_generate_replacements readFile findings placeholder p o r h
    exact fun he => hne he.symm
  · intro p o hro hfix
    apply generate_replacements_lookup_none
    intro o2 hro2
    rw [hro, Option.some.injEq] at hro2
    rw [← hro2]
    exact hfix

/-- Witness for C3: a file whose content changes gets an entry with
`original ≠ redacted`; a file whose content is untouched is absent. -/
theorem C3_plan_entries_changed_witness :
    "zabz".data ≠ "z**z".data
    ∧ (generate_replacements (fun p => if p == "g".data then some "zz".data else none)
        [⟨"g".data, "ab".data, "d".data⟩] []).lookup "g".data = none := by
  constructor
  · exact (C3_plan_entries_changed
      (fun p => if p == "f".data then some "zabz".data else none)
      [⟨"f".data, "ab".data, "d".data⟩] []).1 "f".data "zabz".data "z**z".data (by decide)
  · exact (C3_plan_entries_changed
      (fun p => if p == "g".data then some "zz".data else none)
      [⟨"g".data, "ab".data, "d".data⟩] []).2 "g".data "zz".data (by decide) (by decide)

/-! ### Claim C4 -/

/-- Counterexample to C4 as stated: with placeholder `"xx"` and secret
`"x"`, the first pass turns content `"x"` into `"xx"`, and a second pass on
that redacted text turns it into `"xxxx"` — a further change — so the file
reappears in a second planning run that reads the redacted content. -/
theorem C4_cex :
    redactPass [⟨"f".data, "x".data, "d".data⟩] "xx".data
        (redactPass [⟨"f".data, "x".data, "d".data⟩] "xx".data "x".data)
      ≠ redactPass [⟨"f".data, "x".data, "d".data⟩] "xx".data "x".data
    ∧ (generate_replacements
        (fun p => if p == "f".data then
          some (redactPass [⟨"f".data, "x".data, "d".data⟩] "xx".data "x".data) else none)
        [⟨"f".data, "x".data, "d".data⟩] "xx".data).lookup "f".data
      = some ("xx".data, "xxxx".data) := by
  exact ⟨by decide, by decide⟩

/-- Claim C4 (amended): the substitution pass of plan is idempotent —
running it again on the already-redacted content yields no further change,
and the file is absent from the second result mapping — provided every
finding's secret is non-empty and no character of any finding's replacement
text (the placeholder if non-empty, else asterisks) occurs in any finding's
secret. -/
theorem C4_plan_idempotent (findings : List Finding) (placeholder : List Char)
    (hsafe : ∀ f ∈ findings, f.secret ≠ [] ∧
      ∀ g ∈ findings, ∀ c ∈ replacementFor placeholder g, c ∉ f.secret) :
    (∀ original,
      redactPass findings placeholder (redactPass findings placeholder original)
        = redactPass findings placeholder original)
    ∧ ∀ (readFile : List Char → Option (List Char)) (p original : List Char),
        readFile p = some (redactPass (findings.filter (fun f => f.file_path == p))
          placeholder original) →
        (generate_replacements readFile findings placeholder).lookup p = none := by
  refine ⟨redactPass_fixpoint findings placeholder hsafe, ?_⟩
  intro readFile p original hread
  apply generate_replacements_lookup_none
  intro o hro
  rw [hread, Option.some.injEq] at hro
  rw [← hro]
  refine redactPass_fixpoint (findings.filter (fun f => f.file_path == p)) placeholder
    ?_ original
  intro f hf
  have hfm : f ∈ findings := List.mem_of_mem_filter hf
  exact ⟨(hsafe f hfm).1, fun g hg => (hsafe f hfm).2 g (List.mem_of_mem_filter hg)⟩

/-- Witness for C4 (amended) at concrete inputs. -/
theorem C4_plan_idempotent_witness :
    redactPass [⟨"f".data, "ab".data, "d".data⟩] "[R]".data
        (redactPass [⟨"f".data, "ab".data, "d".data⟩] "[R]".data "zabz".data)
      = redactPass [⟨"f".data, "ab".data, "d".data⟩] "[R]".data "zabz".data
    ∧ (generate_replacements
        (fun p => if p == "f".data then
          some (redactPass [⟨"f".data, "ab".data, "d".data⟩] "[R]".data "zabz".data)
          else none)
        [⟨"f".data, "ab".data, "d".data⟩] "[R]".data).lookup "f".data = none := by
  constructor
  · exact (C4_plan_idempotent [⟨"f".data, "ab".data, "d".data⟩] "[R]".data (by decide)).1
      "zabz".data
  · exact (C4_plan_idempotent [⟨"f".data, "ab".data, "d".data⟩] "[R]".data (by decide)).2
      _ "f".data "zabz".data (by decide)

/-! ### Claim C1 -/

/-- Counterexample to C1 as stated: secrets A = `"x"` and B = `"xy"` (A a
substring of B, both occurring in content `"xy"`) with the non-empty
placeholder `"x"`: after the longest-first pass, A's literal text still
remains in the redacted content. -/
theorem C1_cex :
    occursIn "x".data "xy".data
    ∧ occursIn "xy".data "xy".data
    ∧ occursIn "x".data
        (redactPass [⟨"f".data, "x".data, "d".data⟩, ⟨"f".data, "xy".data, "d".data⟩]
          "x".data "xy".data) := by
  exact ⟨by decide, by decide, by decide⟩

/-- Claim C1 (amended): let A's secret be a proper substring of B's, both
occurring in the content, with all secrets of the group non-empty and no
character of any finding's replacement text occurring in A's or B's secret.
Then after the longest-first pass neither A's nor B's literal text remains;
and when the group is exactly {A, B}, if A occurs somewhere
interval-disjoint from every occurrence of B, then A's own replacement text
occurs in the redacted content. -/
theorem C1_substring_secrets (findings : List Finding) (fA fB : Finding)
    (placeholder content : List Char)
    (hAmem : fA ∈ findings) (hBmem : fB ∈ findings)
    (hAne : fA.secret ≠ []) (hlen : fA.secret.length < fB.secret.length)
    (hsub : occursIn fA.secret fB.secret)
    (hAocc : occursIn fA.secret content) (hBocc : occursIn fB.secret content)
    (hsafe : ∀ g ∈ findings, g.secret ≠ [] ∧
      ∀ c ∈ replacementFor placeholder g, c ∉ fA.secret ∧ c ∉ fB.secret) :
    ¬ occursIn fA.secret (redactPass findings placeholder content)
    ∧ ¬ occursIn fB.secret (redactPass findings placeholder content)
    ∧ ((∃ j, fA.secret <+: content.drop j ∧
          ∀ i < content.length, fB.secret <+: content.drop i →
            i + fB.secret.length ≤ j ∨ j + fA.secret.length ≤ i) →
        occursIn (replacementFor placeholder fA)
          (redactPass [fA, fB] placeholder content)) := by
  have hmem : ∀ g : Finding, g ∈ sortBySecretLenDesc findings ↔ g ∈ findings :=
    fun g => mem_sortBySecretLenDesc g findings
  have hremove : ∀ f : Finding, f ∈ findings →
      (∀ g ∈ findings, ∀ c ∈ replacementFor placeholder g, c ∉ f.secret) →
      ¬ occursIn f.secret (redactPass findings placeholder content) := by
    intro f hf hd
    show ¬ occursIn f.secret
      (foldRedact (replacementFor placeholder) (sortBySecretLenDesc findings) content)
    apply foldRedact_removes _ _ f content ((hmem f).mpr hf)
    intro g hg
    have hgm := (hmem g).mp hg
    exact ⟨(hsafe g hgm).1, replacementFor_ne_nil placeholder g (hsafe g hgm).1, hd g hgm⟩
  refine ⟨hremove fA hAmem (fun g hg c hc => ((hsafe g hg).2 c hc).1),
    hremove fB hBmem (fun g hg c hc => ((hsafe g hg).2 c hc).2), ?_⟩
  rintro ⟨j, hjpre, hjdis⟩
  obtain ⟨a0, a1, hAsec⟩ : ∃ a0 a1, fA.secret = a0 :: a1 := by
    rcases hA : fA.secret with _ | ⟨x, y⟩
    · exact absurd hA hAne
    · exact ⟨x, y, rfl⟩
  obtain ⟨q, qt, hBsec⟩ : ∃ q qt, fB.secret = q :: qt := by
    rcases hB : fB.secret with _ | ⟨x, y⟩
    · exact absurd hB (hsafe fB hBmem).1
    · exact ⟨x, y, rfl⟩
  have hlenN : ¬ (fB.secret.length ≤ fA.secret.length) := by omega
  have hsort : sortBySecretLenDesc [fA, fB] = [fB, fA] := by
    simp only [sortBySecretLenDesc, insertByLenDesc]
    rw [if_neg hlenN]
  have hred : redactPass [fA, fB] placeholder content
      = pyReplace (pyReplace content fB.secret (replacementFor placeholder fB))
          fA.secret (replacementFor placeholder fA) := by
    show foldRedact (replacementFor placeholder) (sortBySecretLenDesc [fA, fB]) content = _
    rw [hsort]
    rfl
  rw [hred, hAsec, hBsec]
  rw [hAsec] at hjpre
  have hdis' : ∀ i, (q :: qt) <+: content.drop i →
      i + qt.length + 1 ≤ j ∨ j + a1.length + 1 ≤ i := by
    intro i hpre
    have hpreP : fB.secret <+: content.drop i := by
      rw [hBsec]
      exact hpre
    have hlt : i < content.length := by
      by_contra hge
      have hnil : content.drop i = [] := List.drop_eq_nil_of_le (by omega)
      rw [hnil, hBsec] at hpreP
      simp at hpreP
    have hh := hjdis i hlt hpreP
    rw [hAsec, hBsec] at hh
    simp only [List.length_cons] at hh
    omega
  have hstep1 : occursIn (a0 :: a1)
      (pyReplace content (q :: qt) (replacementFor placeholder fB)) :=
    occ_survives q qt (replacementFor placeholder fB) content a0 a1 j hjpre hdis'
  exact rep_appears a0 a1 (replacementFor placeholder fA)
    (pyReplace content (q :: qt) (replacementFor placeholder fB)) hstep1

/-- Witness for C1 (amended): A = "cd" inside B = "bcd", content "bcd cd",
placeholder "[R]": both secrets vanish and "[R]" appears for the standalone
"cd". -/
theorem C1_substring_secrets_witness :
    ¬ occursIn "cd".data
        (redactPass [⟨"f".data, "cd".data, "d".data⟩, ⟨"f".data, "bcd".data, "d".data⟩]
          "[R]".data "bcd cd".data)
    ∧ ¬ occursIn "bcd".data
        (redactPass [⟨"f".data, "cd".data, "d".data⟩, ⟨"f".data, "bcd".data, "d".data⟩]
          "[R]".data "bcd cd".data)
    ∧ occursIn "[R]".data
        (redactPass [⟨"f".data, "cd".data, "d".data⟩, ⟨"f".data, "bcd".data, "d".data⟩]
          "[R]".data "bcd cd".data) := by
  obtain ⟨h1, h2, h3⟩ := C1_substring_secrets
    [⟨"f".data, "cd".data, "d".data⟩, ⟨"f".data, "bcd".data, "d".data⟩]
    ⟨"f".data, "cd".data, "d".data⟩ ⟨"f".data, "bcd".data, "d".data⟩
    "[R]".data "bcd cd".data
    (by decide) (by decide) (by decide) (by decide) (by decide) (by decide) (by decide)
    (by decide)
  exact ⟨h1, h2, h3 ⟨4, by decide, by decide⟩⟩

/-! ### Claim C2 -/

/-- The masking pass of `generate_diffs` removes every secret of the file,
provided all are nonempty and no masked form shares a character with a
secret of the same file. -/
theorem maskPassFile_removes (findings : List Finding) (p : List Char)
    (hsec : ∀ f ∈ findings, f.secret ≠ [])
    (hsafe : ∀ f ∈ findings, ∀ g ∈ findings, g.file_path = f.file_path →
      ∀ c ∈ mask_secret g.secret 4, c ∉ f.secret)
    (f : Finding) (hf : f ∈ findings) (hfp : f.file_path = p) (text : List Char) :
    ¬ occursIn f.secret (maskPassFile findings p text) := by
  show ¬ occursIn f.secret
    (foldRedact (fun g => mask_secret g.secret 4)
      (sortBySecretLenDesc (findings.filter (fun g => g.file_path == p))) text)
  have hmemf : f ∈ sortBySecretLenDesc (findings.filter (fun g => g.file_path == p)) := by
    rw [mem_sortBySecretLenDesc, List.mem_filter]
    exact ⟨hf, by simp [hfp]⟩
  apply foldRedact_removes _ _ f text hmemf
  intro g hg
  have hgf : g ∈ findings.filter (fun g2 => g2.file_path == p) :=
    (mem_sortBySecretLenDesc g _).mp hg
  have hgm : g ∈ findings := List.mem_of_mem_filter hgf
  have hgp : g.file_path = p := by
    have hq := (List.mem_filter.mp hgf).2
    simpa using hq
  refine ⟨hsec g hgm, mask_secret_ne_nil g.secret 4 (by omega) (hsec g hgm), ?_⟩
  refine hsafe f hf g hgm ?_
  rw [hgp, hfp]

/-- Counterexample to C2 as stated: the 16-character secret
"5678xxxxxxxx5678" occurs twice, overlapping, in the content
"5678xxxxxxxx5678xxxxxxxx5678"; `mask_secret` keeps the first and last 4
characters, and after the masking pass the displayed original still
contains the secret verbatim — render leaks it into the diff. -/
theorem C2_cex :
    generate_diffs_display
        [("f".data, ("5678xxxxxxxx5678xxxxxxxx5678".data,
          "5678xxxxxxxx5678xxxxxxxx5678".data))]
        [⟨"f".data, "5678xxxxxxxx5678".data, "d".data⟩]
      = [("f".data,
          (maskPassFile [⟨"f".data, "5678xxxxxxxx5678".data, "d".data⟩] "f".data
            "5678xxxxxxxx5678xxxxxxxx5678".data,
          maskPassFile [⟨"f".data, "5678xxxxxxxx5678".data, "d".data⟩] "f".data
            "5678xxxxxxxx5678xxxxxxxx5678".data))]
    ∧ occursIn "5678xxxxxxxx5678".data
        (maskPassFile [⟨"f".data, "5678xxxxxxxx5678".data, "d".data⟩] "f".data
          "5678xxxxxxxx5678xxxxxxxx5678".data) := by
  exact ⟨by decide, by decide⟩

/-- Claim C2 (amended): for every replacements mapping and non-empty
findings list, render (`generate_diffs`) replaces each file's secrets
longest-first by their masked forms in both displayed texts; provided every
secret is non-empty and no character of any same-file secret's masked form
occurs in a secret, no secret of a file remains as a literal substring of
that file's displayed original or displayed redacted text. -/
theorem C2_diff_masks_secrets (replacements : List RepEntry) (findings : List Finding)
    (hne : findings ≠ [])
    (hsec : ∀ f ∈ findings, f.secret ≠ [])
    (hsafe : ∀ f ∈ findings, ∀ g ∈ findings, g.file_path = f.file_path →
      ∀ c ∈ mask_secret g.secret 4, c ∉ f.secret) :
    ∀ p dO dR, (p, (dO, dR)) ∈ generate_diffs_display replacements findings →
      ∀ f ∈ findings, f.file_path = p →
        ¬ occursIn f.secret dO ∧ ¬ occursIn f.secret dR := by
  intro p dO dR hmem f hf hfp
  have hIE : findings.isEmpty = false := by
    cases findings with
    | nil => exact absurd rfl hne
    | cons a l => rfl
  unfold generate_diffs_display at hmem
  obtain ⟨e, _, heq⟩ := List.mem_map.mp hmem
  rw [if_neg (by rw [hIE]; simp)] at heq
  rw [Prod.mk.injEq, Prod.mk.injEq] at heq
  obtain ⟨h1, h2, h3⟩ := heq
  subst h1
  rw [← h2, ← h3]
  exact ⟨maskPassFile_removes findings e.1 hsec hsafe f hf hfp e.2.1,
    maskPassFile_removes findings e.1 hsec hsafe f hf hfp e.2.2⟩

/-- Witness for C2 (amended) at concrete inputs: secret "abab" masked to
"****" disappears from both displayed texts. -/
theorem C2_diff_masks_secrets_witness :
    ¬ occursIn "abab".data
        (maskPassFile [⟨"f".data, "abab".data, "d".data⟩] "f".data "zzababzz".data)
    ∧ ¬ occursIn "abab".data
        (maskPassFile [⟨"f".data, "abab".data, "d".data⟩] "f".data "zz****zz".data) := by
  exact C2_diff_masks_secrets
    [("f".data, ("zzababzz".data, "zz****zz".data))]
    [⟨"f".data, "abab".data, "d".data⟩]
    (by decide) (by decide) (by decide)
    "f".data
    (maskPassFile [⟨"f".data, "abab".data, "d".data⟩] "f".data "zzababzz".data)
    (maskPassFile [⟨"f".data, "abab".data, "d".data⟩] "f".data "zz****zz".data)
    (by decide)
    ⟨"f".data, "abab".data, "d".data⟩ (by decide) (by decide)

/-! ### Claim C5 -/

theorem apply_redactions_foldl (envOf : List Char → WriteEnv) :
    ∀ (entries : List RepEntry) (n : Nat),
      entries.foldl (fun count e => if (applyOne (envOf e.1)).1 then count + 1 else count) n
        = n + entries.countP (fun e => (applyOne (envOf e.1)).1)
  | [], n => by simp
  | e :: rest, n => by
    show rest.foldl _ (if (applyOne (envOf e.1)).1 then n + 1 else n) = _
    rw [apply_redactions_foldl envOf rest, List.countP_cons]
    cases h : (applyOne (envOf e.1)).1 <;> simp [h] <;> omega

/-- Claim C5: commit (`apply_redactions`) processes each entry
independently — the returned count is exactly the number of entries whose
atomic rename succeeded; a failed entry gets a warning, its temporary file
(if created) is deleted, no rename happens for it, and processing
continues with the remaining entries (cons decomposition); failed entries
are not retried. -/
theorem C5_commit_independent (envOf : List Char → WriteEnv) (entries : List RepEntry) :
    apply_redactions envOf entries = entries.countP (fun e => (applyOne (envOf e.1)).1)
    ∧ (∀ e, e ∈ entries → (applyOne (envOf e.1)).1 = false →
        FileAction.warnLog ∈ (applyOne (envOf e.1)).2
        ∧ (FileAction.createTmp ∈ (applyOne (envOf e.1)).2 →
            FileAction.unlinkTmp ∈ (applyOne (envOf e.1)).2)
        ∧ FileAction.renameOverTarget ∉ (applyOne (envOf e.1)).2)
    ∧ (∀ env : WriteEnv,
        (applyOne env).1 = true ↔ FileAction.renameOverTarget ∈ (applyOne env).2)
    ∧ (∀ e rest, apply_redactions envOf (e :: rest)
        = (if (applyOne (envOf e.1)).1 then 1 else 0) + apply_redactions envOf rest) := by
  refine ⟨?_, ?_, ?_, ?_⟩
  · show entries.foldl _ 0 = _
    rw [apply_redactions_foldl envOf entries 0]
    exact Nat.zero_add _
  · intro e _ hfail
    rcases hE : envOf e.1 with ⟨m, w, st, ch, cn, rpl⟩
    rw [hE] at hfail
    clear hE
    revert hfail
    cases m <;> cases w <;> cases st <;> cases ch <;> cases cn <;> cases rpl <;> decide
  · intro env
    rcases env with ⟨m, w, st, ch, cn, rpl⟩
    cases m <;> cases w <;> cases st <;> cases ch <;> cases cn <;> cases rpl <;> decide
  · intro e rest
    show (e :: rest).foldl _ 0 = _ + rest.foldl _ 0
    rw [apply_redactions_foldl envOf (e :: rest) 0, apply_redactions_foldl envOf rest 0,
      List.countP_cons]
    cases h : (applyOne (envOf e.1)).1 <;> simp [h] <;> omega

/-- Witness for C5: one committing entry and one whose write fails — count
is 1 and the failed entry logged a warning after deleting its temp file. -/
theorem C5_commit_independent_witness :
    apply_redactions
        (fun p => if p == "g".data then ⟨true, true, true, true, true, true⟩
          else ⟨true, false, true, true, true, true⟩)
        [("g".data, ("a".data, "b".data)), ("h".data, ("a".data, "b".data))] = 1
    ∧ FileAction.warnLog ∈
        (applyOne ((fun p => if p == "g".data then (⟨true, true, true, true, true, true⟩ : WriteEnv)
          else ⟨true, false, true, true, true, true⟩) "h".data)).2 := by
  constructor
  · exact (C5_commit_independent
      (fun p => if p == "g".data then ⟨true, true, true, true, true, true⟩
        else ⟨true, false, true, true, true, true⟩)
      [("g".data, ("a".data, "b".data)), ("h".data, ("a".data, "b".data))]).1.trans
      (by decide)
  · exact ((C5_commit_independent
      (fun p => if p == "g".data then ⟨true, true, true, true, true, true⟩
        else ⟨true, false, true, true, true, true⟩)
      [("g".data, ("a".data, "b".data)), ("h".data, ("a".data, "b".data))]).2.1
      ("h".data, ("a".data, "b".data)) (by decide) (by decide)).1

/-! ### Claim C6 -/

/-- Claim C6: mask(secret, visible) returns all asterisks when
`len(secret) ≤ visible*2`, else the first `visible` characters, the middle
as asterisks, and the last `visible` characters; concretely a 16-char
secret at visible=4 keeps exactly 4+4 characters around 8 asterisks, an
8-char secret becomes 8 asterisks, and a 1-char secret a single
asterisk. -/
theorem C6_mask_secret_spec (secret : List Char) (visible : Nat) (hv : 0 < visible) :
    (secret.length ≤ visible * 2 →
      mask_secret secret visible = List.replicate secret.length '*')
    ∧ (visible * 2 < secret.length →
      mask_secret secret visible =
        secret.take visible ++ List.replicate (secret.length - visible * 2) '*' ++
          secret.drop (secret.length - visible))
    ∧ mask_secret "abcdefghijklmnop".data 4
        = "abcd".data ++ List.replicate 8 '*' ++ "mnop".data
    ∧ mask_secret "abcdefgh".data 4 = List.replicate 8 '*'
    ∧ mask_secret "a".data 4 = ['*'] := by
  refine ⟨?_, ?_, by decide, by decide, by decide⟩
  · intro hle
    unfold mask_secret
    rw [if_pos hle]
  · intro hgt
    unfold mask_secret takeLast
    rw [if_neg (by omega), if_neg (by omega)]

/-- Witness for C6 at concrete inputs. -/
theorem C6_mask_secret_spec_witness :
    mask_secret "abcdefghijklmnop".data 4 = "abcd".data ++ List.replicate 8 '*' ++ "mnop".data
    ∧ mask_secret "abcdefgh".data 4 = List.replicate "abcdefgh".data.length '*' := by
  exact ⟨(C6_mask_secret_spec "abcdefghijklmnop".data 4 (by decide)).2.2.1,
    (C6_mask_secret_spec "abcdefgh".data 4 (by decide)).1 (by decide)⟩

/-! ### Claim C7 -/

/-- The `'a'` key branch of `_handle_key`: deselect all when everything is
selected, else select all. -/
theorem handle_key_a (findings : List Finding) (selected : List Bool) (cursor : Nat)
    (reveal : Bool) :
    _handle_key 97 findings selected cursor reveal
      = if selected.all (fun b => b) then
          ⟨cursor, reveal, List.replicate findings.length false, none⟩
        else ⟨cursor, reveal, List.replicate findings.length true, none⟩ := by
  unfold _handle_key KEY_UP KEY_DOWN
  rw [if_neg (by decide), if_neg (by decide), if_neg (by decide), if_pos rfl]

/-- Claim C7: for a non-empty findings list, toggle-all on a state where
every entry is selected deselects every entry; toggle-all again re-selects
every entry — a round trip back to the original fully-selected state — and
cursor, reveal flag and loop result are untouched by both events. -/
theorem C7_toggle_all_round_trip (findings : List Finding) (selected : List Bool)
    (cursor : Nat) (reveal : Bool) (hne : findings ≠ [])
    (hlen : selected.length = findings.length)
    (hall : ∀ b ∈ selected, b = true) :
    _handle_key 97 findings selected cursor reveal
      = ⟨cursor, reveal, List.replicate findings.length false, none⟩
    ∧ _handle_key 97 findings (List.replicate findings.length false) cursor reveal
      = ⟨cursor, reveal, List.replicate findings.length true, none⟩
    ∧ List.replicate findings.length true = selected := by
  have hsel : selected.all (fun b => b) = true :=
    List.all_eq_true.mpr (fun b hb => hall b hb)
  have hn : 0 < findings.length := List.length_pos.mpr hne
  have hrep : ((List.replicate findings.length false).all fun b => b) = false := by
    rcases hL : findings.length with _ | n
    · omega
    · simp [List.replicate_succ]
  refine ⟨?_, ?_, ?_⟩
  · rw [handle_key_a, if_pos hsel]
  · rw [handle_key_a, if_neg (by rw [hrep]; simp)]
  · have hr := List.eq_replicate_of_mem hall
    rw [hlen] at hr
    exact hr.symm

/-- Witness for C7 at a concrete one-finding state. -/
theorem C7_toggle_all_round_trip_witness :
    _handle_key 97 [⟨"f".data, "s".data, "d".data⟩] [true] 0 false
      = ⟨0, false, [false], none⟩
    ∧ _handle_key 97 [⟨"f".data, "s".data, "d".data⟩] [false] 0 false
      = ⟨0, false, [true], none⟩ := by
  obtain ⟨h1, h2, _⟩ := C7_toggle_all_round_trip [⟨"f".data, "s".data, "d".data⟩]
    [true] 0 false (by decide) (by decide) (by decide)
  exact ⟨h1, h2⟩

/-! ### Claim C8 -/

/-- Claim C8: for a path longer than the column width, which in
`_draw_finding_row` is always at least the floor `_MIN_PATH_WIDTH`,
`_truncate_path` returns exactly `max_width` characters: a non-empty prefix
of the path, the ellipsis in the middle, and a non-empty suffix of the path
— the ellipsis is never at the edges. -/
theorem C8_truncate_path_middle (path : List Char) (max_width : Nat)
    (hfloor : _MIN_PATH_WIDTH ≤ max_width) (hlong : max_width < path.length) :
    (∀ mx pl ml, _MIN_PATH_WIDTH ≤ path_max_width mx pl ml)
    ∧ (_truncate_path path max_width).length = max_width
    ∧ ∃ pre suf, _truncate_path path max_width = pre ++ _ELLIPSIS ++ suf
        ∧ pre ≠ [] ∧ suf ≠ [] ∧ pre <+: path ∧ suf <:+ path := by
  have hM : _MIN_PATH_WIDTH = 5 := rfl
  have hE : _ELLIPSIS.length = 3 := rfl
  have hfloor5 : 5 ≤ max_width := by rw [hM] at hfloor; exact hfloor
  refine ⟨?_, ?_, ?_⟩
  · intro mx pl ml
    exact le_max_left _ _
  · unfold _truncate_path takeLast
    rw [if_neg (by omega), if_neg (by rw [hE]; omega), if_neg (by rw [hE]; omega)]
    simp only [List.length_append, List.length_take, List.length_drop, hE]
    rw [Nat.min_eq_left (by omega)]
    omega
  · refine ⟨path.take ((max_width - _ELLIPSIS.length) / 2),
      takeLast path (max_width - _ELLIPSIS.length - (max_width - _ELLIPSIS.length) / 2),
      ?_, ?_, ?_, ?_, ?_⟩
    · unfold _truncate_path
      rw [if_neg (by omega), if_neg (by rw [hE]; omega)]
    · intro h0
      have hlp : 0 < (path.take ((max_width - _ELLIPSIS.length) / 2)).length := by
        simp only [List.length_take, hE]
        rw [Nat.min_eq_left (by omega)]
        omega
      rw [h0] at hlp
      simp at hlp
    · intro h0
      have hlp : 0 <
          (takeLast path (max_width - _ELLIPSIS.length
            - (max_width - _ELLIPSIS.length) / 2)).length := by
        unfold takeLast
        rw [if_neg (by rw [hE]; omega)]
        simp only [List.length_drop, hE]
        omega
      rw [h0] at hlp
      simp at hlp
    · exact ⟨path.drop ((max_width - _ELLIPSIS.length) / 2), List.take_append_drop _ path⟩
    · show takeLast path (max_width - _ELLIPSIS.length
          - (max_width - _ELLIPSIS.length) / 2) <:+ path
      unfold takeLast
      rw [if_neg (by rw [hE]; omega)]
      exact ⟨path.take (path.length - (max_width - _ELLIPSIS.length
        - (max_width - _ELLIPSIS.length) / 2)), List.take_append_drop _ path⟩

/-- Witness for C8: a 10-character path in a 5-wide column. -/
theorem C8_truncate_path_middle_witness :
    (_truncate_path "abcdefghij".data 5).length = 5
    ∧ _truncate_path "abcdefghij".data 5 = "a...j".data := by
  obtain ⟨_, h2, _⟩ := C8_truncate_path_middle "abcdefghij".data 5 (by decide) (by decide)
  exact ⟨h2, by decide⟩

/-! ### Claims C9 and C10 -/

/-- Claim C9: with a non-empty findings list and no TTY available,
`run_tui` never enters the event loop: it reports the condition, returns
the empty selection and creates no selection state (as a total function of
its oracles, it raises nothing to its caller). -/
theorem C9_no_tty (findings : List Finding) (openOk fdopenOk : Bool)
    (loopResult : List Finding) (hne : findings ≠ [])
    (htty : (_open_tty openOk fdopenOk).1 = none) :
    run_tui findings openOk fdopenOk loopResult = ⟨[], true, false, true, none⟩ := by
  have hIE : findings.isEmpty = false := by
    cases findings with
    | nil => exact absurd rfl hne
    | cons a l => rfl
  unfold run_tui
  rw [if_neg (by rw [hIE]; simp)]
  cases openOk
  · simp [_open_tty]
  · cases fdopenOk
    · simp [_open_tty]
    · simp [_open_tty] at htty

/-- Witness for C9: one finding, `os.open("/dev/tty")` failing. -/
theorem C9_no_tty_witness :
    run_tui [⟨"f".data, "s".data, "d".data⟩] false true []
      = ⟨[], true, false, true, none⟩ :=
  C9_no_tty [⟨"f".data, "s".data, "d".data⟩] false true [] (by decide) (by decide)

/-- Claim C10: called with an empty findings list, `run_tui` returns the
empty list immediately: no TTY is attempted, no selection state is created,
the loop is not entered, whatever the environment. -/
theorem C10_empty_findings (openOk fdopenOk : Bool) (loopResult : List Finding) :
    run_tui [] openOk fdopenOk loopResult = ⟨[], false, false, false, none⟩ := rfl
